import Mathlib

/-!
Shallow embedding of swarm/network/kademlia/address.go (package kademlia)
and verification of the spec claims about it.

An Address is [32]byte in the source; it is modelled as a List Nat of
length 32 whose entries are below 256 (predicate isAddress).  Byte
operations are Nat operations; Go int arithmetic on possibly negative
quantities uses Int.tdiv / Int.tmod (Go division truncates toward zero)
and conversion to byte is emod 256 (two's complement low 8 bits).
Functions that can hit an out-of-range array index (a runtime panic in
Go) return Option, with none modelling the panic.  The package-level
random source rand.Intn(255) is modelled by an arbitrary stream
rnd : Nat -> Nat, the c-th call returning rnd c % 255.
-/

namespace Kademlia

/-- An address value is well formed when it has exactly 32 bytes, each below 256. -/
def isAddress (a : List Nat) : Prop := a.length = 32 ∧ ∀ b ∈ a, b < 256

instance : DecidablePred isAddress := fun a =>
  decidable_of_iff (a.length = 32 ∧ ∀ b ∈ a, b < 256) Iff.rfl

/-- Inner loop of proximity: the position j in 0..7 of the first set bit of
the xor byte, scanning from the most significant bit, exactly the source test
(oxo >> uint8(7-j)) & 0x01 != 0 for j = 0,...,7, none when no bit is found. -/
def firstDiffBit (oxo : Nat) : Option Nat :=
  (List.range 8).find? fun j => (oxo >>> (7 - j)) &&& 1 != 0

/-- Outer loop of proximity over the zipped byte pairs; i is the current byte
index, so the final return is i * 8 = len(one) * 8 under the equal-length
assumption the source makes (it indexes both arrays in lockstep). -/
def proximityAux : List (Nat × Nat) → Nat → Nat
  | [], i => i * 8
  | (x, y) :: rest, i =>
    match firstDiffBit (x ^^^ y) with
    | some j => i * 8 + j
    | none => proximityAux rest (i + 1)

/-- proximity(one, other) from the source: the proximity order of the MSB xor
distance, i.e. the index of the first differing bit (MSB first, byte 0 first),
and len * 8 when the addresses are identical. -/
def proximity (one other : List Nat) : Nat := proximityAux (one.zip other) 0

/-- Loop of Address.ProxCmp over the three byte lists in lockstep: da and db
are the xor distances of the current bytes of a and b to target; the source
returns 1 when da > db, -1 when da < db, and 0 when the loop ends. -/
def proxCmpAux : List Nat → List Nat → List Nat → Int
  | t :: ts, x :: xs, y :: ys =>
    let da := x ^^^ t
    let db := y ^^^ t
    if db < da then 1 else if da < db then -1 else proxCmpAux ts xs ys
  | _, _, _ => 0

/-- Address.ProxCmp(a, b) from the source, with target the receiver. -/
def ProxCmp (target a b : List Nat) : Int := proxCmpAux target a b

/-- Overwrite the entries at positions ≥ start with the successive values
gen c, gen (c+1), ...; i is the position of the head of the list.  This models
the source loop for i := start; i < len(addr); i++ with addr[i] set to the
next output of the byte source gen. -/
def setFrom (gen : Nat → Nat) : List Nat → Nat → Nat → Nat → List Nat
  | [], _, _, _ => []
  | b :: rest, i, start, c =>
    if start ≤ i then gen c :: setFrom gen rest (i + 1) start (c + 1)
    else b :: setFrom gen rest (i + 1) start c

/-- Accumulation loop of RandomAddressAt building transbytea: for j := 0;
j <= trans; j++ the bit 1 << (7-j) is or-ed in, so the result has the top
trans + 1 bits of a byte set. -/
def orMask (trans : Nat) : Nat :=
  (List.range (trans + 1)).foldl (fun m j => m ||| (1 <<< (7 - j))) 0

/-- RandomAddressAt(self, prox) from the source.  The stream rnd supplies the
results of the successive rand.Intn(255) calls (call c yields rnd c % 255).
Returns none when the source would panic indexing addr[pos] out of range;
note that for prox < 0 the variable pos stays 0 and the fill loop starts at
index pos + 1 = 1, exactly as in the source. -/
def RandomAddressAt (self : List Nat) (prox : Int) (rnd : Nat → Nat) : Option (List Nat) :=
  if 0 ≤ prox then
    let pn := prox.toNat
    let pos := pn / 8
    let trans := pn % 8
    let transbytea := orMask trans
    let flipbyte := 1 <<< (7 - trans)
    let transbyteb := transbytea ^^^ 255
    let randbyte := rnd 0 % 255
    match self[pos]? with
    | none => none
    | some b =>
      some (setFrom (fun c => rnd c % 255)
        (self.set pos (((b &&& transbytea) ^^^ flipbyte) ||| (randbyte &&& transbyteb)))
        0 (pos + 1) 1)
  else
    some (setFrom (fun c => rnd c % 255) self 0 1 0)

/-- CommonBitsAddrF(self, other, f, p) from the source.  The byte source f is
a stream, call c returning f c; p is a Go int, so p / 8 is Int.tdiv and
byte(p % 8) is (Int.tmod p 8).emod 256.  Returns none when the source would
panic indexing addr[pos] with pos negative or out of range. -/
def CommonBitsAddrF (self other : List Nat) (f : Nat → Nat) (p : Int) : Option (List Nat) :=
  let prox0 : Int := (proximity self other : Int)
  let prox : Int := if p ≤ prox0 then p else prox0
  let posI : Int := Int.tdiv prox 8
  let trans : Nat := ((Int.tmod prox 8).emod 256).toNat
  let transbytea : Nat := (if prox < p then 127 else 255) >>> trans
  let transbyteb : Nat := transbytea ^^^ 255
  if 0 ≤ posI then
    match self[posI.toNat]? with
    | none => none
    | some b =>
      let a1 := b &&& transbyteb
      let a2 := if prox < p then a1 ^^^ (128 >>> trans) else a1
      let a3 := a2 ||| (transbytea &&& f 0)
      some (setFrom f (self.set posI.toNat a3) 0 (posI.toNat + 1) 1)
  else none

/-- CommonBitsAddr from the source: randomized fill from the rand stream. -/
def CommonBitsAddr (self other : List Nat) (rnd : Nat → Nat) (prox : Int) : Option (List Nat) :=
  CommonBitsAddrF self other (fun c => rnd c % 255) prox

/-- CommonBitsAddrByte from the source: constant fill byte b. -/
def CommonBitsAddrByte (self other : List Nat) (b : Nat) (prox : Int) : Option (List Nat) :=
  CommonBitsAddrF self other (fun _ => b) prox

/-- KeyRange(one, other, proxLimit) from the source: caps the proximity at
proxLimit and builds the inclusive range with constant fill 0x00 / 0xff. -/
def KeyRange (one other : List Nat) (proxLimit : Int) : Option (List Nat × List Nat) :=
  let prox0 : Int := (proximity one other : Int)
  let prox : Int := if proxLimit ≤ prox0 then proxLimit else prox0
  match CommonBitsAddrByte one other 0 prox, CommonBitsAddrByte one other 255 prox with
  | some start, some stop => some (start, stop)
  | _, _ => none

/-- RandomAddress() from the source: RandomAddressAt(Address{}, -1), the zero
address with an unconstrained proximity request. -/
def RandomAddress (rnd : Nat → Nat) : Option (List Nat) :=
  RandomAddressAt (List.replicate 32 0) (-1) rnd

/-- Address.UnmarshalJSON from the source: slices off the first and last
byte with value[1 : len(value)-1] — a slice that panics when the input is
shorter than 2 bytes (modelled as none) — assigns common.HexToHash of the
remainder and returns a nil error unconditionally.  common.HexToHash lives
outside this source file, so it is an explicit parameter here; the error
result does not depend on it. -/
def UnmarshalJSON (hexToHash : String → List Nat) (value : String) :
    Option (Except String (List Nat)) :=
  if 2 ≤ value.length then
    some (Except.ok (hexToHash ((value.drop 1).dropRight 1)))
  else none

/-- Bit k of an address, most significant bit first within each byte, byte 0
first: the leading-bits notion used by the spec claims. -/
def bitOf (a : List Nat) (k : Nat) : Bool := Nat.testBit (a.getD (k / 8) 0) (7 - k % 8)

/-- Value of a byte sequence read as a big-endian unsigned integer: the
comparison order named by the spec claims for key ranges. -/
def beVal : List Nat → Nat
  | [] => 0
  | b :: rest => b * 256 ^ rest.length + beVal rest

/-- The all-zero 32-byte address (Address{} in the source). -/
def zeroAddr : List Nat := List.replicate 32 0

/-- A 32-byte address whose very first bit is set. -/
def topAddr : List Nat := 128 :: List.replicate 31 0

/-! ### Bit-level facts about the byte masks of the source -/

lemma shift_and_one (x k : Nat) : ((x >>> k) &&& 1 != 0) = Nat.testBit x k := by
  rw [Nat.land_comm]; rfl

lemma tb_255 (i : Nat) : Nat.testBit 255 i = decide (i < 8) := by
  have h : (255 : Nat) = 2 ^ 8 - 1 := rfl
  rw [h, Nat.testBit_two_pow_sub_one]

lemma tb_127 (i : Nat) : Nat.testBit 127 i = decide (i < 7) := by
  have h : (127 : Nat) = 2 ^ 7 - 1 := rfl
  rw [h, Nat.testBit_two_pow_sub_one]

lemma tb_shift255 (t i : Nat) : Nat.testBit (255 >>> t) i = decide (t + i < 8) := by
  rw [Nat.testBit_shiftRight, tb_255]

lemma tb_shift127 (t i : Nat) : Nat.testBit (127 >>> t) i = decide (t + i < 7) := by
  rw [Nat.testBit_shiftRight, tb_127]

lemma tb_shift128 (t i : Nat) : Nat.testBit (128 >>> t) i = decide (7 = t + i) := by
  have h : (128 : Nat) = 2 ^ 7 := rfl
  rw [Nat.testBit_shiftRight, h, Nat.testBit_two_pow]

lemma tb_one_shift (k i : Nat) : Nat.testBit (1 <<< k) i = decide (k = i) := by
  rw [Nat.shiftLeft_eq, one_mul, Nat.testBit_two_pow]

lemma orMask_succ (t : Nat) : orMask (t + 1) = orMask t ||| (1 <<< (7 - (t + 1))) := by
  unfold orMask
  rw [List.range_succ, List.foldl_append]
  rfl

lemma tb_orMask : ∀ (t : Nat), t ≤ 7 → ∀ (i : Nat),
    Nat.testBit (orMask t) i = decide (7 - t ≤ i ∧ i ≤ 7) := by
  intro t
  induction t with
  | zero =>
    intro _ i
    have h : orMask 0 = 1 <<< 7 := rfl
    rw [h, tb_one_shift, decide_eq_decide]
    omega
  | succ n ih =>
    intro hn i
    rw [orMask_succ, Nat.testBit_lor, ih (by omega) i, tb_one_shift, ← Bool.decide_or,
      decide_eq_decide]
    omega

/-! ### The first-set-bit scan -/

lemma find_range8 (p : Nat → Bool) (t : Nat) (ht : t < 8) (hpt : p t = true)
    (hlt : ∀ j, j < t → p j = false) : (List.range 8).find? p = some t := by
  have h8 : List.range 8 = [0, 1, 2, 3, 4, 5, 6, 7] := rfl
  rw [h8]
  interval_cases t <;> simp [List.find?, hpt, hlt]

lemma firstDiffBit_zero : firstDiffBit 0 = none := rfl

lemma firstDiffBit_eq_some {x t : Nat} (ht : t < 8) (h1 : Nat.testBit x (7 - t) = true)
    (h2 : ∀ j, j < t → Nat.testBit x (7 - j) = false) : firstDiffBit x = some t := by
  unfold firstDiffBit
  refine find_range8 _ t ht ?_ ?_
  · rw [shift_and_one]; exact h1
  · intro j hj; rw [shift_and_one]; exact h2 j hj

lemma firstDiffBit_eq_none {x : Nat} (h : firstDiffBit x = none) :
    ∀ k, k < 8 → Nat.testBit x k = false := by
  intro k hk
  unfold firstDiffBit at h
  rw [List.find?_eq_none] at h
  have hm := h (7 - k) (List.mem_range.mpr (by omega))
  rw [shift_and_one] at hm
  have h77 : 7 - (7 - k) = k := by omega
  rw [h77] at hm
  simpa using hm

lemma firstDiffBit_lt_8 {x j : Nat} (h : firstDiffBit x = some j) : j < 8 := by
  unfold firstDiffBit at h
  exact List.mem_range.mp (List.mem_of_find?_eq_some h)

/-! ### The boundary bytes produced by the transforms -/

lemma raa_bit_flip (b r t : Nat) (ht : t ≤ 7) :
    Nat.testBit (b ^^^ (((b &&& orMask t) ^^^ (1 <<< (7 - t))) ||| (r &&& (orMask t ^^^ 255))))
      (7 - t) = true := by
  simp only [Nat.testBit_xor, Nat.testBit_lor, Nat.testBit_land,
    tb_orMask t ht, tb_one_shift, tb_255,
    eq_true (show 7 - t ≤ 7 - t by omega), eq_true (show 7 - t ≤ 7 by omega),
    eq_true (show 7 - t < 8 by omega)]
  simp

lemma raa_bit_keep (b r t j : Nat) (ht : t ≤ 7) (hj : j < t) :
    Nat.testBit (b ^^^ (((b &&& orMask t) ^^^ (1 <<< (7 - t))) ||| (r &&& (orMask t ^^^ 255))))
      (7 - j) = false := by
  simp only [Nat.testBit_xor, Nat.testBit_lor, Nat.testBit_land,
    tb_orMask t ht, tb_one_shift, tb_255,
    eq_true (show 7 - t ≤ 7 - j by omega), eq_true (show 7 - j ≤ 7 by omega),
    eq_true (show 7 - j < 8 by omega), eq_false (show ¬ (7 - t = 7 - j) by omega)]
  simp

/-- The boundary byte written by RandomAddressAt diverges from the original
byte first at bit trans, for every random byte r. -/
lemma raa_firstDiff (b r t : Nat) (ht : t ≤ 7) :
    firstDiffBit (b ^^^ (((b &&& orMask t) ^^^ (1 <<< (7 - t))) ||| (r &&& (orMask t ^^^ 255))))
      = some t := by
  exact firstDiffBit_eq_some (by omega) (raa_bit_flip b r t ht)
    (fun j hj => raa_bit_keep b r t j ht hj)

lemma cbaf_keep_bit (b r t j : Nat) (hj : j < t) :
    Nat.testBit ((b &&& ((255 >>> t) ^^^ 255)) ||| ((255 >>> t) &&& r)) (7 - j) =
      Nat.testBit b (7 - j) := by
  simp only [Nat.testBit_lor, Nat.testBit_land, Nat.testBit_xor, tb_shift255, tb_255,
    eq_true (show 7 - j < 8 by omega), eq_false (show ¬ (t + (7 - j) < 8) by omega)]
  simp

lemma cbaf_fill_bit (b r t : Nat) (ht : t ≤ 7) :
    Nat.testBit ((b &&& ((255 >>> t) ^^^ 255)) ||| ((255 >>> t) &&& r)) (7 - t) =
      Nat.testBit r (7 - t) := by
  simp only [Nat.testBit_lor, Nat.testBit_land, Nat.testBit_xor, tb_shift255, tb_255,
    eq_true (show 7 - t < 8 by omega), eq_true (show t + (7 - t) < 8 by omega)]
  simp

lemma cbaf_flip_bit (b r t : Nat) (ht : t ≤ 7) :
    Nat.testBit (((b &&& ((127 >>> t) ^^^ 255)) ^^^ (128 >>> t)) ||| ((127 >>> t) &&& r)) (7 - t) =
      ! Nat.testBit b (7 - t) := by
  simp only [Nat.testBit_lor, Nat.testBit_xor, Nat.testBit_land, tb_shift127, tb_shift128, tb_255,
    eq_true (show 7 - t < 8 by omega), eq_false (show ¬ (t + (7 - t) < 7) by omega),
    eq_true (show 7 = t + (7 - t) by omega)]
  simp

/-! ### List access lemmas for set and setFrom -/

lemma getD_set_self {l : List Nat} {n : Nat} (h : n < l.length) (v : Nat) :
    (l.set n v).getD n 0 = v := by
  rw [List.getD_eq_getElem?_getD, List.getElem?_set_self', List.getElem?_eq_getElem h]
  rfl

lemma getD_set_ne {l : List Nat} {m n : Nat} (h : m ≠ n) (v : Nat) :
    (l.set m v).getD n 0 = l.getD n 0 := by
  rw [List.getD_eq_getElem?_getD, List.getElem?_set_ne h, ← List.getD_eq_getElem?_getD]

lemma setFrom_length (gen : Nat → Nat) : ∀ (l : List Nat) (i s c : Nat),
    (setFrom gen l i s c).length = l.length := by
  intro l
  induction l with
  | nil => intro i s c; rfl
  | cons b rest ih =>
    intro i s c
    unfold setFrom
    by_cases h : s ≤ i <;> simp [h, ih]

lemma setFrom_getD_lt (gen : Nat → Nat) : ∀ (l : List Nat) (i s c k : Nat), i + k < s →
    (setFrom gen l i s c).getD k 0 = l.getD k 0 := by
  intro l
  induction l with
  | nil => intros; rfl
  | cons b rest ih =>
    intro i s c k hk
    unfold setFrom
    rw [if_neg (by omega)]
    cases k with
    | zero => rfl
    | succ n =>
      show (setFrom gen rest (i + 1) s c).getD n 0 = rest.getD n 0
      exact ih (i + 1) s c n (by omega)

lemma setFrom_const_getD_ge (v : Nat) : ∀ (l : List Nat) (i s c k : Nat), s ≤ i + k →
    k < l.length → (setFrom (fun _ => v) l i s c).getD k 0 = v := by
  intro l
  induction l with
  | nil => intro i s c k _ hk; simp at hk
  | cons b rest ih =>
    intro i s c k hs hk
    unfold setFrom
    by_cases h : s ≤ i
    · rw [if_pos h]
      cases k with
      | zero => rfl
      | succ n =>
        show (setFrom (fun _ => v) rest (i + 1) s (c + 1)).getD n 0 = v
        exact ih (i + 1) s (c + 1) n (by omega) (by simpa using hk)
    · rw [if_neg h]
      cases k with
      | zero => omega
      | succ n =>
        show (setFrom (fun _ => v) rest (i + 1) s c).getD n 0 = v
        exact ih (i + 1) s c n (by omega) (by simpa using hk)

/-! ### Structure of the proximity scan -/

lemma proximityAux_nil (i : Nat) : proximityAux [] i = i * 8 := rfl

lemma proximityAux_cons (x y : Nat) (rest : List (Nat × Nat)) (i : Nat) :
    proximityAux ((x, y) :: rest) i =
      match firstDiffBit (x ^^^ y) with
      | some j => i * 8 + j
      | none => proximityAux rest (i + 1) := rfl

lemma proximityAux_scan : ∀ (pos : Nat) (a b : List Nat) (i t : Nat),
    pos < a.length → pos < b.length →
    (∀ k, k < pos → a.getD k 0 = b.getD k 0) →
    firstDiffBit (a.getD pos 0 ^^^ b.getD pos 0) = some t →
    proximityAux (a.zip b) i = (i + pos) * 8 + t := by
  intro pos
  induction pos with
  | zero =>
    intro a b i t ha hb _ hfd
    cases a with
    | nil => simp at ha
    | cons x xs =>
      cases b with
      | nil => simp at hb
      | cons y ys =>
        have hfd' : firstDiffBit (x ^^^ y) = some t := hfd
        show proximityAux ((x, y) :: xs.zip ys) i = (i + 0) * 8 + t
        rw [proximityAux_cons, hfd']
        simp
  | succ n ih =>
    intro a b i t ha hb hpre hfd
    cases a with
    | nil => simp at ha
    | cons x xs =>
      cases b with
      | nil => simp at hb
      | cons y ys =>
        have hxy : x = y := hpre 0 (by omega)
        show proximityAux ((x, y) :: xs.zip ys) i = (i + (n + 1)) * 8 + t
        rw [proximityAux_cons, hxy, Nat.xor_self, firstDiffBit_zero]
        have hres := ih xs ys (i + 1) t (by simpa using ha) (by simpa using hb)
          (fun k hk => hpre (k + 1) (by omega)) hfd
        show proximityAux (xs.zip ys) (i + 1) = (i + (n + 1)) * 8 + t
        rw [hres]
        ring_nf

lemma proximityAux_zip_symm : ∀ (a b : List Nat) (i : Nat),
    proximityAux (a.zip b) i = proximityAux (b.zip a) i := by
  intro a
  induction a with
  | nil => intro b i; cases b <;> rfl
  | cons x xs ih =>
    intro b i
    cases b with
    | nil => rfl
    | cons y ys =>
      show proximityAux ((x, y) :: xs.zip ys) i = proximityAux ((y, x) :: ys.zip xs) i
      unfold proximityAux
      rw [Nat.xor_comm]
      cases firstDiffBit (y ^^^ x) with
      | none => exact ih ys (i + 1)
      | some j => rfl

lemma proximityAux_full : ∀ (l : List (Nat × Nat)) (i : Nat),
    (∀ q ∈ l, q.1 < 256 ∧ q.2 < 256) →
    proximityAux l i = (i + l.length) * 8 → ∀ q ∈ l, q.1 = q.2 := by
  intro l
  induction l with
  | nil => intro i _ _ q hq; simp at hq
  | cons p rest ih =>
    intro i hbytes heq q hq
    obtain ⟨x, y⟩ := p
    have hxy : x = y := by
      rcases hfd : firstDiffBit (x ^^^ y) with _ | j
      · have hx : x < 256 := (hbytes (x, y) (by simp)).1
        have hy : y < 256 := (hbytes (x, y) (by simp)).2
        have hbit : ∀ k, Nat.testBit (x ^^^ y) k = false := by
          intro k
          by_cases hk : k < 8
          · exact firstDiffBit_eq_none hfd k hk
          · have hlt : x ^^^ y < 2 ^ 8 := Nat.xor_lt_two_pow hx hy
            exact Nat.testBit_lt_two_pow (lt_of_lt_of_le hlt (Nat.pow_le_pow_right
              (by omega) (by omega)))
        have hz : x ^^^ y = 0 := Nat.eq_of_testBit_eq fun k => by rw [hbit k]; simp
        exact Nat.xor_eq_zero.mp hz
      · exfalso
        have hj : j < 8 := firstDiffBit_lt_8 hfd
        have hval : proximityAux ((x, y) :: rest) i = i * 8 + j := by
          rw [proximityAux_cons, hfd]
        rw [heq] at hval
        simp only [List.length_cons] at hval
        omega
    rcases List.mem_cons.mp hq with hq1 | hq1
    · rw [hq1]
      exact hxy
    · refine ih (i + 1) (fun q' hq' => hbytes q' (by simp [hq'])) ?_ q hq1
      have hstep : proximityAux ((x, y) :: rest) i = proximityAux (rest) (i + 1) := by
        rw [proximityAux_cons, hxy, Nat.xor_self, firstDiffBit_zero]
      rw [← hstep, heq]
      simp only [List.length_cons]
      ring_nf

lemma proximityAux_le : ∀ (l : List (Nat × Nat)) (i : Nat),
    proximityAux l i ≤ (i + l.length) * 8 := by
  intro l
  induction l with
  | nil => intro i; simp [proximityAux]
  | cons p rest ih =>
    intro i
    match p with
    | (x, y) =>
      show proximityAux ((x, y) :: rest) i ≤ _
      unfold proximityAux
      rcases hfd : firstDiffBit (x ^^^ y) with _ | j
      · have := ih (i + 1)
        simp only [List.length_cons]
        omega
      · have hj : j < 8 := firstDiffBit_lt_8 hfd
        simp only [List.length_cons]
        omega

lemma proximity_le_256 (a b : List Nat) (ha : a.length = 32) (hb : b.length = 32) :
    proximity a b ≤ 256 := by
  have := proximityAux_le (a.zip b) 0
  rw [List.length_zip, ha, hb] at this
  simpa using this

lemma eq_of_zip_eq : ∀ (a b : List Nat), a.length = b.length →
    (∀ q ∈ a.zip b, q.1 = q.2) → a = b := by
  intro a
  induction a with
  | nil => intro b hlen _; cases b with
    | nil => rfl
    | cons y ys => simp at hlen
  | cons x xs ih =>
    intro b hlen hq
    cases b with
    | nil => simp at hlen
    | cons y ys =>
      have hx : x = y := hq (x, y) (by simp)
      rw [hx, ih ys (by simpa using hlen) (fun q hq' => hq q (by simp [hq']))]

/-! ### Evaluating the address transforms to explicit list expressions -/

lemma RandomAddressAt_eq (self : List Nat) (pN : Nat) (rnd : Nat → Nat)
    (hlen : self.length = 32) (hpN : pN ≤ 255) :
    RandomAddressAt self (pN : Int) rnd =
      some (setFrom (fun c => rnd c % 255)
        (self.set (pN / 8)
          (((self.getD (pN / 8) 0 &&& orMask (pN % 8)) ^^^ (1 <<< (7 - pN % 8))) |||
            ((rnd 0 % 255) &&& (orMask (pN % 8) ^^^ 255))))
        0 (pN / 8 + 1) 1) := by
  have hpos : pN / 8 < self.length := by omega
  have hsome : self[pN / 8]? = some (self.getD (pN / 8) 0) := by
    rw [List.getElem?_eq_getElem hpos, List.getD_eq_getElem?_getD,
      List.getElem?_eq_getElem hpos]
    rfl
  simp only [RandomAddressAt, if_pos (show (0:Int) ≤ (pN : Int) by positivity), hsome,
    Int.toNat_natCast]

lemma CommonBitsAddrF_eq_cap (self other : List Nat) (f : Nat → Nat) (pN : Nat)
    (hlen : self.length = 32) (hpN : pN ≤ 255)
    (hcap : (pN : Int) ≤ (proximity self other : Int)) :
    CommonBitsAddrF self other f (pN : Int) =
      some (setFrom f
        (self.set (pN / 8)
          ((self.getD (pN / 8) 0 &&& ((255 >>> (pN % 8)) ^^^ 255)) |||
            ((255 >>> (pN % 8)) &&& f 0)))
        0 (pN / 8 + 1) 1) := by
  have hpos : pN / 8 < self.length := by omega
  have hsome : self[pN / 8]? = some (self.getD (pN / 8) 0) := by
    rw [List.getElem?_eq_getElem hpos, List.getD_eq_getElem?_getD,
      List.getElem?_eq_getElem hpos]
    rfl
  have htdiv : Int.tdiv (pN : Int) 8 = ((pN / 8 : Nat) : Int) := rfl
  have htmod : (Int.tmod (pN : Int) 8).emod 256 = ((pN % 8 : Nat) : Int) := by
    have h : Int.tmod (pN : Int) 8 = ((pN % 8 : Nat) : Int) := rfl
    rw [h]
    apply Int.emod_eq_of_lt
    · positivity
    · have := @Nat.mod_lt pN 8 (by omega)
      omega
  simp only [CommonBitsAddrF, if_pos hcap, htdiv, htmod, Int.toNat_natCast,
    if_pos (show (0:Int) ≤ ((pN / 8 : Nat) : Int) by positivity),
    if_neg (show ¬ ((pN : Int) < (pN : Int)) by omega), hsome]

lemma shift255_big {t : Nat} (h : 8 ≤ t) : 255 >>> t = 0 := by
  rw [Nat.shiftRight_eq_div_pow]
  apply Nat.div_eq_of_lt
  calc 255 < 2 ^ 8 := by norm_num
    _ ≤ 2 ^ t := Nat.pow_le_pow_right (by omega) h

lemma CommonBitsAddrF_eq_neg (self other : List Nat) (f : Nat → Nat) (k : Nat)
    (hlen : self.length = 32) (hk1 : 1 ≤ k) (hk7 : k ≤ 7) :
    CommonBitsAddrF self other f (-(k : Int)) =
      some (setFrom f (self.set 0 (self.getD 0 0 &&& 255)) 0 1 1) := by
  have hpos : 0 < self.length := by omega
  have hsome : self[(0 : Nat)]? = some (self.getD 0 0) := by
    rw [List.getElem?_eq_getElem hpos, List.getD_eq_getElem?_getD,
      List.getElem?_eq_getElem hpos]
    rfl
  have hdiv : Int.tdiv (-(k : Int)) 8 = 0 := by
    rw [Int.neg_tdiv]
    have h : Int.tdiv (k : Int) 8 = ((k / 8 : Nat) : Int) := rfl
    have h2 : k / 8 = 0 := by omega
    rw [h, h2]
    simp
  have htrans : ((Int.tmod (-(k : Int)) 8).emod 256).toNat = 256 - k := by
    have hm := Int.tmod_add_tdiv (-(k : Int)) 8
    rw [hdiv] at hm
    have hmv : Int.tmod (-(k : Int)) 8 = -(k : Int) := by omega
    rw [hmv]
    have he : (-(k : Int)).emod 256 = (-(k : Int)) % 256 := rfl
    omega
  have hshift : 255 >>> (256 - k) = 0 := shift255_big (by omega)
  simp only [CommonBitsAddrF,
    if_pos (show -(k : Int) ≤ ((proximity self other : Nat) : Int) by omega),
    if_neg (show ¬ (-(k : Int) < -(k : Int)) by omega), hdiv, htrans, hshift,
    if_pos (show (0:Int) ≤ 0 by omega), Int.toNat_zero, hsome]
  simp [Nat.zero_and, Nat.or_zero]

lemma CommonBitsAddrF_eq_flip (self other : List Nat) (f : Nat → Nat) (p : Int)
    (hlen : self.length = 32) (hflip : ((proximity self other : Nat) : Int) < p)
    (h255 : proximity self other ≤ 255) :
    CommonBitsAddrF self other f p =
      some (setFrom f
        (self.set (proximity self other / 8)
          (((self.getD (proximity self other / 8) 0 &&&
              ((127 >>> (proximity self other % 8)) ^^^ 255)) ^^^
            (128 >>> (proximity self other % 8))) |||
            ((127 >>> (proximity self other % 8)) &&& f 0)))
        0 (proximity self other / 8 + 1) 1) := by
  have hpos : proximity self other / 8 < self.length := by omega
  have hsome : self[proximity self other / 8]? =
      some (self.getD (proximity self other / 8) 0) := by
    rw [List.getElem?_eq_getElem hpos, List.getD_eq_getElem?_getD,
      List.getElem?_eq_getElem hpos]
    rfl
  have htdiv : Int.tdiv ((proximity self other : Nat) : Int) 8 =
      ((proximity self other / 8 : Nat) : Int) := rfl
  have htmod : (Int.tmod ((proximity self other : Nat) : Int) 8).emod 256 =
      ((proximity self other % 8 : Nat) : Int) := by
    have h : Int.tmod ((proximity self other : Nat) : Int) 8 =
        ((proximity self other % 8 : Nat) : Int) := rfl
    rw [h]
    apply Int.emod_eq_of_lt
    · positivity
    · have := @Nat.mod_lt (proximity self other) 8 (by omega)
      omega
  simp only [CommonBitsAddrF, if_neg (show ¬ (p ≤ ((proximity self other : Nat) : Int)) by omega),
    htdiv, htmod, Int.toNat_natCast,
    if_pos (show (0:Int) ≤ ((proximity self other / 8 : Nat) : Int) by positivity),
    if_pos hflip, hsome]

lemma CommonBitsAddrF_none_big (self other : List Nat) (f : Nat → Nat) (p : Int)
    (hlen : self.length = 32) (h256 : 256 ≤ p)
    (hcap : p ≤ (proximity self other : Int)) :
    CommonBitsAddrF self other f p = none := by
  have hm : p = (p.toNat : Int) := by omega
  rw [hm] at hcap h256 ⊢
  have htdiv : Int.tdiv (p.toNat : Int) 8 = ((p.toNat / 8 : Nat) : Int) := rfl
  have hge : 32 ≤ p.toNat / 8 := by omega
  have hnone : self[p.toNat / 8]? = none := List.getElem?_eq_none (by omega)
  simp only [CommonBitsAddrF, if_pos hcap, htdiv, Int.toNat_natCast,
    if_pos (show (0:Int) ≤ ((p.toNat / 8 : Nat) : Int) by positivity), hnone]

lemma CommonBitsAddrF_none_low (self other : List Nat) (f : Nat → Nat) (p : Int)
    (hlow : p ≤ -8) :
    CommonBitsAddrF self other f p = none := by
  have hm : p = -(((-p).toNat : Nat) : Int) := by omega
  rw [hm]
  have hdiv : Int.tdiv (-(((-p).toNat : Nat) : Int)) 8 = -(((((-p).toNat / 8 : Nat)) : Nat) : Int) := by
    rw [Int.neg_tdiv]
    norm_cast
  simp only [CommonBitsAddrF,
    if_pos (show -(((-p).toNat : Nat) : Int) ≤ ((proximity self other : Nat) : Int) by omega),
    hdiv,
    if_neg (show ¬ ((0:Int) ≤ -(((((-p).toNat / 8 : Nat)) : Nat) : Int)) by
      have : 1 ≤ (-p).toNat / 8 := by omega
      omega)]

/-! ### Big-endian value comparison -/

lemma nat_le_lor (a c : Nat) : a ≤ a ||| c :=
  Nat.le_of_testBit fun i h => by rw [Nat.testBit_lor, h]; rfl

lemma beVal_le_of_getD_le : ∀ (a b : List Nat), a.length = b.length →
    (∀ k, a.getD k 0 ≤ b.getD k 0) → beVal a ≤ beVal b := by
  intro a
  induction a with
  | nil => intro b hlen _; cases b with
    | nil => exact le_refl _
    | cons y ys => simp at hlen
  | cons x xs ih =>
    intro b hlen hle
    cases b with
    | nil => simp at hlen
    | cons y ys =>
      have hxy : x ≤ y := by
        have := hle 0
        simpa using this
      have htl : beVal xs ≤ beVal ys := ih ys (by simpa using hlen)
        (fun k => by have := hle (k + 1); simpa [List.getD_cons_succ] using this)
      show x * 256 ^ xs.length + beVal xs ≤ y * 256 ^ ys.length + beVal ys
      have hlen' : xs.length = ys.length := by simpa using hlen
      rw [hlen']
      exact Nat.add_le_add (Nat.mul_le_mul_right _ hxy) htl

/-! ### Claim C1 -/

/-- C1: for every 32-byte reference address r and every integer prox with
0 ≤ prox < 256, the address returned by RandomAddressAt(r, prox) has
proximity order exactly prox to r — for every value the random byte source
may supply, not merely ≥ prox. -/
theorem randomAddressAt_exact_proximity (r : List Nat) (prox : Int) (rnd : Nat → Nat)
    (hr : isAddress r) (h0 : 0 ≤ prox) (h256 : prox < 256) :
    ∃ a, RandomAddressAt r prox rnd = some a ∧ ((proximity r a : Nat) : Int) = prox := by
  obtain ⟨hlen, _⟩ := hr
  set pN := prox.toNat with hpN
  have hcast : (pN : Int) = prox := by omega
  have hpN255 : pN ≤ 255 := by omega
  set pos := pN / 8 with hpos
  set t := pN % 8 with ht
  set b := r.getD pos 0 with hb
  set v := ((b &&& orMask t) ^^^ (1 <<< (7 - t))) ||| ((rnd 0 % 255) &&& (orMask t ^^^ 255))
    with hv
  refine ⟨setFrom (fun c => rnd c % 255) (r.set pos v) 0 (pos + 1) 1, ?_, ?_⟩
  · rw [← hcast]
    exact RandomAddressAt_eq r pN rnd hlen hpN255
  · set res := setFrom (fun c => rnd c % 255) (r.set pos v) 0 (pos + 1) 1 with hres
    have hposlt : pos < r.length := by omega
    have hreslen : res.length = 32 := by rw [hres, setFrom_length, List.length_set, hlen]
    have hpre0 : ∀ k, k < pos → r.getD k 0 = res.getD k 0 := by
      intro k hk
      rw [hres, setFrom_getD_lt _ _ _ _ _ _ (by omega), getD_set_ne (show pos ≠ k by omega)]
    have hboundary : res.getD pos 0 = v := by
      rw [hres, setFrom_getD_lt _ _ _ _ _ _ (by omega), getD_set_self (by omega)]
    have hfd : firstDiffBit (r.getD pos 0 ^^^ res.getD pos 0) = some t := by
      rw [hboundary, hv, ← hb]
      exact raa_firstDiff b (rnd 0 % 255) t (by omega)
    have hval := proximityAux_scan pos r res 0 t hposlt (by omega) hpre0 hfd
    have hprox : proximity r res = pN := by
      unfold proximity
      rw [hval]
      omega
    rw [hprox, hcast]

/-- C1 witness: the theorem applied at the zero address, prox = 9, zero
random stream. -/
theorem randomAddressAt_exact_proximity_w :
    ∃ a, RandomAddressAt zeroAddr 9 (fun _ => 0) = some a ∧
      ((proximity zeroAddr a : Nat) : Int) = 9 :=
  randomAddressAt_exact_proximity zeroAddr 9 (fun _ => 0) (by decide) (by decide) (by decide)

/-! ### Claim C4 -/

/-- C4: the code keeps byte 0 of the result equal to byte 0 of the reference
for every negative prox, because the fill loop starts at index pos + 1 = 1;
in particular RandomAddress() always returns an address with first byte 0.
This contradicts the claim (and the source comment) that a fully random
address is generated. -/
theorem randomAddressAt_neg_keeps_first_byte :
    (∀ (self : List Nat) (rnd : Nat → Nat) (p : Int), p < 0 →
      ∃ a, RandomAddressAt self p rnd = some a ∧ a.getD 0 0 = self.getD 0 0) ∧
    (∀ rnd : Nat → Nat, ∃ a, RandomAddress rnd = some a ∧ a.getD 0 0 = 0) := by
  constructor
  · intro self rnd p hp
    refine ⟨setFrom (fun c => rnd c % 255) self 0 1 0, ?_, ?_⟩
    · simp only [RandomAddressAt, if_neg (show ¬ (0 ≤ p) by omega)]
    · rw [setFrom_getD_lt _ _ _ _ _ _ (by omega)]
  · intro rnd
    refine ⟨setFrom (fun c => rnd c % 255) (List.replicate 32 0) 0 1 0, ?_, ?_⟩
    · simp only [RandomAddress, RandomAddressAt, if_neg (show ¬ ((0:Int) ≤ -1) by omega)]
    · rw [setFrom_getD_lt _ _ _ _ _ _ (by omega)]
      rfl

/-- C4 witness: byte 0 of RandomAddressAt(topAddr, -1) stays 128 even though
the random stream supplies only the value 5. -/
theorem randomAddressAt_neg_keeps_first_byte_w :
    ∃ a, RandomAddressAt topAddr (-1) (fun _ => 5) = some a ∧
      a.getD 0 0 = topAddr.getD 0 0 :=
  randomAddressAt_neg_keeps_first_byte.1 topAddr (fun _ => 5) (-1) (by decide)

/-! ### Claim C6 -/

/-- C6 counterexample: a string that is not a rendered identifier (wrong
length and non-hexadecimal characters) is accepted: UnmarshalJSON returns
success, not an InvalidEncoding error, because the source returns a nil
error unconditionally after the quote-stripping slice. -/
theorem unmarshalJSON_counterexample :
    UnmarshalJSON (fun _ => zeroAddr) "q-not-hex!q" = some (Except.ok zeroAddr) :=
  rfl

/-- C6 amended: UnmarshalJSON never returns an error.  On every input of at
least two bytes — where the slice value[1 : len(value)-1] is in range — it
assigns HexToHash of the unquoted remainder and returns a nil error, for
every behaviour of the HexToHash helper; on inputs shorter than two bytes
it panics on that slice (none) rather than returning an error. -/
theorem unmarshalJSON_never_errors (hexToHash : String → List Nat) (value : String) :
    (2 ≤ value.length →
      UnmarshalJSON hexToHash value =
        some (Except.ok (hexToHash ((value.drop 1).dropRight 1)))) ∧
    (value.length < 2 → UnmarshalJSON hexToHash value = none) := by
  constructor
  · intro h
    unfold UnmarshalJSON
    rw [if_pos h]
  · intro h
    unfold UnmarshalJSON
    rw [if_neg (by omega)]

/-- C6 witness: both branches of the amended theorem at concrete inputs —
an 11-byte malformed string is accepted, a 1-byte input hits the slice
panic. -/
theorem unmarshalJSON_never_errors_w :
    UnmarshalJSON (fun _ => zeroAddr) "q-not-hex!q" = some (Except.ok zeroAddr) ∧
    UnmarshalJSON (fun _ => zeroAddr) "q" = none :=
  ⟨(unmarshalJSON_never_errors (fun _ => zeroAddr) "q-not-hex!q").1 (by decide),
   (unmarshalJSON_never_errors (fun _ => zeroAddr) "q").2 (by decide)⟩

/-! ### Claims C7 and C10: ProxCmp -/

lemma proxCmpAux_cons (t x y : Nat) (ts xs ys : List Nat) :
    proxCmpAux (t :: ts) (x :: xs) (y :: ys) =
      if (y ^^^ t) < (x ^^^ t) then 1 else if (x ^^^ t) < (y ^^^ t) then -1
      else proxCmpAux ts xs ys := rfl

lemma proxCmpAux_cases : ∀ (t a b : List Nat),
    proxCmpAux t a b = -1 ∨ proxCmpAux t a b = 0 ∨ proxCmpAux t a b = 1 := by
  intro t
  induction t with
  | nil => intro a b; right; left; rfl
  | cons x ts ih =>
    intro a b
    cases a with
    | nil => right; left; rfl
    | cons y ys =>
      cases b with
      | nil => right; left; rfl
      | cons z zs =>
        rw [proxCmpAux_cons]
        by_cases h1 : (z ^^^ x) < (y ^^^ x)
        · right; right; simp [h1]
        · by_cases h2 : (y ^^^ x) < (z ^^^ x)
          · left; simp [h1, h2]
          · rcases ih ys zs with h | h | h
            · left; simp [h1, h2, h]
            · right; left; simp [h1, h2, h]
            · right; right; simp [h1, h2, h]

lemma proxCmpAux_self : ∀ (t a : List Nat), proxCmpAux t a a = 0 := by
  intro t
  induction t with
  | nil => intro a; rfl
  | cons x ts ih =>
    intro a
    cases a with
    | nil => rfl
    | cons y ys =>
      rw [proxCmpAux_cons]
      simp [lt_irrefl, ih]

/-- C7: ProxCmp always returns one of -1, 0, 1, and comparing an address
with itself yields 0, for every target. -/
theorem proxCmp_total (target a b : List Nat) (ht : isAddress target) (ha : isAddress a)
    (hb : isAddress b) :
    (ProxCmp target a b = -1 ∨ ProxCmp target a b = 0 ∨ ProxCmp target a b = 1) ∧
    ProxCmp target a a = 0 :=
  ⟨proxCmpAux_cases target a b, proxCmpAux_self target a⟩

/-- C7 witness: the theorem applied at concrete addresses. -/
theorem proxCmp_total_w :
    (ProxCmp zeroAddr topAddr zeroAddr = -1 ∨ ProxCmp zeroAddr topAddr zeroAddr = 0 ∨
      ProxCmp zeroAddr topAddr zeroAddr = 1) ∧
    ProxCmp zeroAddr topAddr topAddr = 0 :=
  proxCmp_total zeroAddr topAddr zeroAddr (by decide) (by decide) (by decide)

lemma proxCmpAux_eq_zero_iff : ∀ (t a b : List Nat), t.length = a.length →
    t.length = b.length → (proxCmpAux t a b = 0 ↔ a = b) := by
  intro t
  induction t with
  | nil =>
    intro a b hta htb
    cases a with
    | nil =>
      cases b with
      | nil => simp [proxCmpAux]
      | cons z zs => simp at htb
    | cons y ys => simp at hta
  | cons x ts ih =>
    intro a b hta htb
    cases a with
    | nil => simp at hta
    | cons y ys =>
      cases b with
      | nil => simp at htb
      | cons z zs =>
        rw [proxCmpAux_cons]
        by_cases h1 : (z ^^^ x) < (y ^^^ x)
        · rw [if_pos h1]
          constructor
          · intro h; exact absurd h (by decide)
          · intro h
            injection h with hyz _
            rw [hyz] at h1
            exact absurd h1 (lt_irrefl _)
        · rw [if_neg h1]
          by_cases h2 : (y ^^^ x) < (z ^^^ x)
          · rw [if_pos h2]
            constructor
            · intro h; exact absurd h (by decide)
            · intro h
              injection h with hyz _
              rw [hyz] at h2
              exact absurd h2 (lt_irrefl _)
          · rw [if_neg h2]
            have hxy : y = z := by
              have he : y ^^^ x = z ^^^ x := by omega
              have := congrArg (fun w => w ^^^ x) he
              simpa [Nat.xor_cancel_right] using this
            rw [ih ys zs (by simpa using hta) (by simpa using htb), hxy]
            simp

/-- C10: ProxCmp(target)(a, b) returns 0 exactly when a = b; the equal
result never holds for two distinct addresses, whatever the target. -/
theorem proxCmp_zero_iff_eq (target a b : List Nat) (ht : isAddress target)
    (ha : isAddress a) (hb : isAddress b) :
    ProxCmp target a b = 0 ↔ a = b :=
  proxCmpAux_eq_zero_iff target a b (by rw [ht.1, ha.1]) (by rw [ht.1, hb.1])

/-- C10 witness: the theorem applied at concrete addresses. -/
theorem proxCmp_zero_iff_eq_w :
    ProxCmp zeroAddr topAddr zeroAddr = 0 ↔ topAddr = zeroAddr :=
  proxCmp_zero_iff_eq zeroAddr topAddr zeroAddr (by decide) (by decide) (by decide)

/-! ### Claims C8 and C9: proximity -/

/-- C8: proximity is symmetric — xor is commutative byte by byte. -/
theorem proximity_symm (a b : List Nat) (ha : isAddress a) (hb : isAddress b) :
    proximity a b = proximity b a := by
  unfold proximity
  exact proximityAux_zip_symm a b 0

/-- C8 witness: the theorem applied at concrete addresses. -/
theorem proximity_symm_w : proximity zeroAddr topAddr = proximity topAddr zeroAddr :=
  proximity_symm zeroAddr topAddr (by decide) (by decide)

/-- C9: the maximal proximity order 256 is reached only by identical
addresses — if proximity(a, b) = 256 then a = b. -/
theorem proximity_max_imp_eq (a b : List Nat) (ha : isAddress a) (hb : isAddress b)
    (h : proximity a b = 256) : a = b := by
  obtain ⟨hal, hab⟩ := ha
  obtain ⟨hbl, hbb⟩ := hb
  have hlenz : (a.zip b).length = 32 := by
    rw [List.length_zip, hal, hbl]
    simp
  have hbytes : ∀ q ∈ a.zip b, q.1 < 256 ∧ q.2 < 256 := by
    intro q hq
    obtain ⟨x, y⟩ := q
    exact ⟨hab x (List.of_mem_zip hq).1, hbb y (List.of_mem_zip hq).2⟩
  have heq : proximityAux (a.zip b) 0 = (0 + (a.zip b).length) * 8 := by
    unfold proximity at h
    rw [h, hlenz]
  exact eq_of_zip_eq a b (by omega) (proximityAux_full (a.zip b) 0 hbytes heq)

/-- C9 witness: the theorem applied at the zero address against itself. -/
theorem proximity_max_imp_eq_w : zeroAddr = zeroAddr :=
  proximity_max_imp_eq zeroAddr zeroAddr (by decide) (by decide) (by decide)

/-! ### Claim C3 -/

/-- C3 counterexample: with prox = proxLimit = 256 (the top of the documented
proximity range, reached by proximity(a, a)), both RandomAddressAt and
KeyRange index byte position 32 of a 32-byte array: a runtime panic,
modelled as none. -/
theorem ops_panic_at_256 :
    RandomAddressAt zeroAddr 256 (fun _ => 0) = none ∧
    KeyRange zeroAddr zeroAddr 256 = none := by
  exact ⟨by decide, by decide⟩

/-- C3 amended: for well-formed addresses and prox / proxLimit in [0, 255]
the generation and range operations stay in bounds and return a value
(proximity and ProxCmp are total functions of the embedding by
construction). -/
theorem ops_inbounds (r one other : List Nat) (rnd : Nat → Nat) (p : Int)
    (hr : isAddress r) (h1 : isAddress one) (h2 : isAddress other)
    (h0 : 0 ≤ p) (h255 : p ≤ 255) :
    (RandomAddressAt r p rnd).isSome = true ∧ (KeyRange one other p).isSome = true := by
  have hcast : ((p.toNat : Nat) : Int) = p := by omega
  constructor
  · rw [← hcast, RandomAddressAt_eq r p.toNat rnd hr.1 (by omega)]
    rfl
  · simp only [KeyRange, CommonBitsAddrByte]
    by_cases hc : p ≤ ((proximity one other : Nat) : Int)
    · rw [if_pos hc, ← hcast,
        CommonBitsAddrF_eq_cap one other (fun _ => 0) p.toNat h1.1 (by omega) (by omega),
        CommonBitsAddrF_eq_cap one other (fun _ => 255) p.toNat h1.1 (by omega) (by omega)]
      rfl
    · rw [if_neg hc,
        CommonBitsAddrF_eq_cap one other (fun _ => 0) (proximity one other) h1.1 (by omega)
          (le_refl _),
        CommonBitsAddrF_eq_cap one other (fun _ => 255) (proximity one other) h1.1 (by omega)
          (le_refl _)]
      rfl

/-- C3 witness: the amended theorem applied at concrete addresses with
proxLimit 255. -/
theorem ops_inbounds_w :
    (RandomAddressAt zeroAddr 255 (fun _ => 0)).isSome = true ∧
    (KeyRange zeroAddr topAddr 255).isSome = true :=
  ops_inbounds zeroAddr zeroAddr topAddr (fun _ => 0) 255 (by decide) (by decide) (by decide)
    (by decide) (by decide)

/-! ### Claim C5 -/

/-- C5 counterexample: reference all zero, other with first bit set, cap 5.
The proximity 0 is below the cap, so per the claim the cap is not the
binding constraint and the bit after the (empty) preserved prefix should
stay unflipped; the code flips it: the result is topAddr, whose bit 0
differs from the reference. -/
theorem commonBitsAddrF_flip_counterexample :
    CommonBitsAddrF zeroAddr topAddr (fun _ => 0) 5 = some topAddr ∧
    proximity zeroAddr topAddr = 0 ∧
    bitOf topAddr 0 ≠ bitOf zeroAddr 0 :=
  ⟨by decide, by decide, by decide⟩

/-- C5 amended: the flip goes the other way round.  When the cap p exceeds
the true proximity (so the proximity is the binding constraint), the bit
just after the preserved prefix — bit position proximity(self, other) — is
flipped relative to the reference; when p ≤ proximity (the cap binds), no
flip happens and the bit at position p is taken from the fill byte f(). -/
theorem commonBitsAddrF_flip_policy (self other : List Nat) (f : Nat → Nat) (p : Nat)
    (h1 : isAddress self) (h2 : isAddress other) (hp : p ≤ 255)
    (res : List Nat) (h : CommonBitsAddrF self other f (p : Int) = some res) :
    (proximity self other < p →
      bitOf res (proximity self other) = ! bitOf self (proximity self other)) ∧
    (p ≤ proximity self other → bitOf res p = Nat.testBit (f 0) (7 - p % 8)) := by
  obtain ⟨hlen, _⟩ := h1
  constructor
  · intro hflip
    rw [CommonBitsAddrF_eq_flip self other f (p : Int) (by omega) (by omega) (by omega)] at h
    have hres : res = setFrom f
        (self.set (proximity self other / 8)
          (((self.getD (proximity self other / 8) 0 &&&
              ((127 >>> (proximity self other % 8)) ^^^ 255)) ^^^
            (128 >>> (proximity self other % 8))) |||
            ((127 >>> (proximity self other % 8)) &&& f 0)))
        0 (proximity self other / 8 + 1) 1 := (Option.some.inj h).symm
    have hbyte : res.getD (proximity self other / 8) 0 =
        ((self.getD (proximity self other / 8) 0 &&&
            ((127 >>> (proximity self other % 8)) ^^^ 255)) ^^^
          (128 >>> (proximity self other % 8))) |||
          ((127 >>> (proximity self other % 8)) &&& f 0) := by
      rw [hres, setFrom_getD_lt _ _ _ _ _ _ (by omega), getD_set_self (by omega)]
    unfold bitOf
    rw [hbyte]
    exact cbaf_flip_bit (self.getD (proximity self other / 8) 0) (f 0)
      (proximity self other % 8) (by omega)
  · intro hcap
    rw [CommonBitsAddrF_eq_cap self other f p (by omega) (by omega) (by omega)] at h
    have hres : res = setFrom f
        (self.set (p / 8)
          ((self.getD (p / 8) 0 &&& ((255 >>> (p % 8)) ^^^ 255)) |||
            ((255 >>> (p % 8)) &&& f 0)))
        0 (p / 8 + 1) 1 := (Option.some.inj h).symm
    have hbyte : res.getD (p / 8) 0 =
        (self.getD (p / 8) 0 &&& ((255 >>> (p % 8)) ^^^ 255)) |||
          ((255 >>> (p % 8)) &&& f 0) := by
      rw [hres, setFrom_getD_lt _ _ _ _ _ _ (by omega), getD_set_self (by omega)]
    unfold bitOf
    rw [hbyte]
    exact cbaf_fill_bit (self.getD (p / 8) 0) (f 0) (p % 8) (by omega)

/-- C5 witness: the amended theorem at reference zero, other topAddr,
constant zero fill, cap 5; the proximity 0 is binding and bit 0 of the
result is flipped. -/
theorem commonBitsAddrF_flip_policy_w :
    (proximity zeroAddr topAddr < 5 →
      bitOf topAddr (proximity zeroAddr topAddr) =
        ! bitOf zeroAddr (proximity zeroAddr topAddr)) ∧
    (5 ≤ proximity zeroAddr topAddr →
      bitOf topAddr 5 = Nat.testBit 0 (7 - 5 % 8)) :=
  commonBitsAddrF_flip_policy zeroAddr topAddr (fun _ => 0) 5 (by decide) (by decide)
    (by decide) topAddr (by decide)

/-! ### Claim C2 -/

lemma keyRange_core (one : List Nat) (pN : Nat) (s0 t0 : List Nat)
    (hol : one.length = 32) (hpN : pN ≤ 255)
    (hs : s0 = setFrom (fun _ => 0)
      (one.set (pN / 8)
        ((one.getD (pN / 8) 0 &&& ((255 >>> (pN % 8)) ^^^ 255)) |||
          ((255 >>> (pN % 8)) &&& 0))) 0 (pN / 8 + 1) 1)
    (ht : t0 = setFrom (fun _ => 255)
      (one.set (pN / 8)
        ((one.getD (pN / 8) 0 &&& ((255 >>> (pN % 8)) ^^^ 255)) |||
          ((255 >>> (pN % 8)) &&& 255))) 0 (pN / 8 + 1) 1) :
    (∀ j, j < pN → bitOf s0 j = bitOf one j ∧ bitOf t0 j = bitOf one j) ∧
    beVal s0 ≤ beVal t0 := by
  have hs0len : s0.length = 32 := by rw [hs, setFrom_length, List.length_set, hol]
  have ht0len : t0.length = 32 := by rw [ht, setFrom_length, List.length_set, hol]
  have hbs : s0.getD (pN / 8) 0 =
      (one.getD (pN / 8) 0 &&& ((255 >>> (pN % 8)) ^^^ 255)) |||
        ((255 >>> (pN % 8)) &&& 0) := by
    rw [hs, setFrom_getD_lt _ _ _ _ _ _ (by omega), getD_set_self (by omega)]
  have hbt : t0.getD (pN / 8) 0 =
      (one.getD (pN / 8) 0 &&& ((255 >>> (pN % 8)) ^^^ 255)) |||
        ((255 >>> (pN % 8)) &&& 255) := by
    rw [ht, setFrom_getD_lt _ _ _ _ _ _ (by omega), getD_set_self (by omega)]
  constructor
  · intro j hj
    by_cases hcase : j / 8 = pN / 8
    · have hjm : j % 8 < pN % 8 := by omega
      unfold bitOf
      rw [hcase, hbs, hbt]
      exact ⟨cbaf_keep_bit (one.getD (pN / 8) 0) 0 (pN % 8) (j % 8) hjm,
        cbaf_keep_bit (one.getD (pN / 8) 0) 255 (pN % 8) (j % 8) hjm⟩
    · have hlt : j / 8 < pN / 8 := by omega
      unfold bitOf
      have hbs' : s0.getD (j / 8) 0 = one.getD (j / 8) 0 := by
        rw [hs, setFrom_getD_lt _ _ _ _ _ _ (by omega), getD_set_ne (show pN / 8 ≠ j / 8 by omega)]
      have hbt' : t0.getD (j / 8) 0 = one.getD (j / 8) 0 := by
        rw [ht, setFrom_getD_lt _ _ _ _ _ _ (by omega), getD_set_ne (show pN / 8 ≠ j / 8 by omega)]
      rw [hbs', hbt']
      exact ⟨rfl, rfl⟩
  · apply beVal_le_of_getD_le s0 t0 (by omega)
    intro k
    by_cases hk32 : k < 32
    · by_cases hklt : k < pN / 8
      · have hbs' : s0.getD k 0 = one.getD k 0 := by
          rw [hs, setFrom_getD_lt _ _ _ _ _ _ (by omega),
            getD_set_ne (show pN / 8 ≠ k by omega)]
        have hbt' : t0.getD k 0 = one.getD k 0 := by
          rw [ht, setFrom_getD_lt _ _ _ _ _ _ (by omega),
            getD_set_ne (show pN / 8 ≠ k by omega)]
        rw [hbs', hbt']
      · by_cases hkeq : k = pN / 8
        · subst hkeq
          rw [hbs, hbt, Nat.and_zero, Nat.or_zero]
          exact nat_le_lor _ _
        · have hgt : pN / 8 < k := by omega
          have hbs' : s0.getD k 0 = 0 := by
            rw [hs]
            exact setFrom_const_getD_ge 0 _ 0 (pN / 8 + 1) 1 k (by omega)
              (by rw [List.length_set, hol]; omega)
          have hbt' : t0.getD k 0 = 255 := by
            rw [ht]
            exact setFrom_const_getD_ge 255 _ 0 (pN / 8 + 1) 1 k (by omega)
              (by rw [List.length_set, hol]; omega)
          rw [hbs', hbt']
          omega
    · rw [List.getD_eq_default _ _ (by omega : s0.length ≤ k),
        List.getD_eq_default _ _ (by omega : t0.length ≤ k)]

lemma keyRange_core_neg (one : List Nat) (s0 t0 : List Nat) (hol : one.length = 32)
    (hs : s0 = setFrom (fun _ => 0) (one.set 0 (one.getD 0 0 &&& 255)) 0 1 1)
    (ht : t0 = setFrom (fun _ => 255) (one.set 0 (one.getD 0 0 &&& 255)) 0 1 1) :
    beVal s0 ≤ beVal t0 := by
  apply beVal_le_of_getD_le s0 t0 (by rw [hs, ht, setFrom_length, setFrom_length])
  intro k
  by_cases hk32 : k < 32
  · cases k with
    | zero =>
      have hv1 : s0.getD 0 0 = (one.set 0 (one.getD 0 0 &&& 255)).getD 0 0 := by
        rw [hs, setFrom_getD_lt _ _ _ _ _ _ (by omega)]
      have hv2 : t0.getD 0 0 = (one.set 0 (one.getD 0 0 &&& 255)).getD 0 0 := by
        rw [ht, setFrom_getD_lt _ _ _ _ _ _ (by omega)]
      rw [hv1, hv2]
    | succ n =>
      have hv1 : s0.getD (n + 1) 0 = 0 := by
        rw [hs]
        exact setFrom_const_getD_ge 0 _ 0 1 1 (n + 1) (by omega)
          (by rw [List.length_set, hol]; omega)
      have hv2 : t0.getD (n + 1) 0 = 255 := by
        rw [ht]
        exact setFrom_const_getD_ge 255 _ 0 1 1 (n + 1) (by omega)
          (by rw [List.length_set, hol]; omega)
      rw [hv1, hv2]
      omega
  · rw [List.getD_eq_default _ _
        (show s0.length ≤ k by rw [hs, setFrom_length, List.length_set, hol]; omega),
      List.getD_eq_default _ _
        (show t0.length ≤ k by rw [ht, setFrom_length, List.length_set, hol]; omega)]

/-- C2: whenever KeyRange(one, other, proxLimit) returns a pair
(start, stop), the leading min(proximity(one, other), proxLimit) bits of
both start and stop agree with one, and start ≤ stop when the two byte
sequences are read as big-endian unsigned integers. -/
theorem keyRange_prefix_and_order (one other : List Nat) (proxLimit : Int)
    (h1 : isAddress one) (h2 : isAddress other) (start stop : List Nat)
    (h : KeyRange one other proxLimit = some (start, stop)) :
    (∀ j : Nat, (j : Int) < min ((proximity one other : Nat) : Int) proxLimit →
      bitOf start j = bitOf one j ∧ bitOf stop j = bitOf one j) ∧
    beVal start ≤ beVal stop := by
  obtain ⟨hol, hob⟩ := h1
  have hprox256 : proximity one other ≤ 256 := proximity_le_256 one other hol h2.1
  simp only [KeyRange, CommonBitsAddrByte] at h
  by_cases hc : proxLimit ≤ ((proximity one other : Nat) : Int)
  · rw [if_pos hc] at h
    by_cases hc0 : 0 ≤ proxLimit
    · have hc255 : proxLimit ≤ 255 := by
        by_contra hgt
        rw [CommonBitsAddrF_none_big one other (fun _ => 0) proxLimit hol (by omega) hc] at h
        simp at h
      set pN := proxLimit.toNat with hpN
      have hcast : (pN : Int) = proxLimit := by omega
      rw [← hcast] at h hc ⊢
      rw [CommonBitsAddrF_eq_cap one other (fun _ => 0) pN hol (by omega) hc,
        CommonBitsAddrF_eq_cap one other (fun _ => 255) pN hol (by omega) hc] at h
      obtain ⟨hS, hT⟩ := Prod.mk.inj (Option.some.inj h)
      obtain ⟨hpre, hle⟩ := keyRange_core one pN start stop hol (by omega) hS.symm hT.symm
      refine ⟨fun j hj => hpre j ?_, hle⟩
      rw [min_eq_right hc] at hj
      omega
    · by_cases hc7 : -7 ≤ proxLimit
      · set k := (-proxLimit).toNat with hk
        have hcast : -(k : Int) = proxLimit := by omega
        rw [← hcast] at h
        rw [CommonBitsAddrF_eq_neg one other (fun _ => 0) k hol (by omega) (by omega),
          CommonBitsAddrF_eq_neg one other (fun _ => 255) k hol (by omega) (by omega)] at h
        obtain ⟨hS, hT⟩ := Prod.mk.inj (Option.some.inj h)
        constructor
        · intro j hj
          exfalso
          have hjlt : (j : Int) < proxLimit := lt_of_lt_of_le hj (min_le_right _ _)
          omega
        · exact keyRange_core_neg one start stop hol hS.symm hT.symm
      · exfalso
        rw [CommonBitsAddrF_none_low one other (fun _ => 0) proxLimit (by omega)] at h
        simp at h
  · rw [if_neg hc] at h
    have h255 : proximity one other ≤ 255 := by
      by_contra hgt
      rw [CommonBitsAddrF_none_big one other (fun _ => 0) ((proximity one other : Nat) : Int)
        hol (by omega) (le_refl _)] at h
      simp at h
    rw [CommonBitsAddrF_eq_cap one other (fun _ => 0) (proximity one other) hol h255 (le_refl _),
      CommonBitsAddrF_eq_cap one other (fun _ => 255) (proximity one other) hol h255
        (le_refl _)] at h
    obtain ⟨hS, hT⟩ := Prod.mk.inj (Option.some.inj h)
    obtain ⟨hpre, hle⟩ := keyRange_core one (proximity one other) start stop hol h255
      hS.symm hT.symm
    refine ⟨fun j hj => hpre j ?_, hle⟩
    rw [min_eq_left (by omega)] at hj
    omega

/-- C2 witness: the theorem applied to KeyRange(0...0, 0...0, 9), whose
range is (the zero address, 0x007fffff...ff). -/
theorem keyRange_prefix_and_order_w :
    (∀ j : Nat, (j : Int) < min ((proximity zeroAddr zeroAddr : Nat) : Int) 9 →
      bitOf zeroAddr j = bitOf zeroAddr j ∧
      bitOf (0 :: 127 :: List.replicate 30 255) j = bitOf zeroAddr j) ∧
    beVal zeroAddr ≤ beVal (0 :: 127 :: List.replicate 30 255) :=
  keyRange_prefix_and_order zeroAddr zeroAddr 9 (by decide) (by decide) zeroAddr
    (0 :: 127 :: List.replicate 30 255) (by decide)

end Kademlia
